import Mathlib

/-!
Verification development for the ai-coding-agent repository.

The repository ships a VS Code extension (src/extension.ts) implementing the
tt.askAI command, plus the documentation of a local coding agent (workspace
indexer, task router, context assembler, orchestration loop).  The extension
command is embedded directly from src/extension.ts.  The agent components are
not present under src/, so they are modelled from the specification text, as
marked on each definition.
-/

set_option maxRecDepth 4096

namespace CodingAgent

/-! ## Task Router -/

/-- Modelled from the spec: ComplexityTier, one of LOW, MEDIUM, HIGH
(the router implementation, router.py, is not present under src/). -/
inductive ComplexityTier
  | LOW
  | MEDIUM
  | HIGH
deriving DecidableEq

/-- Modelled from the spec: the fixed (model identifier, token budget,
max step count) triple bound to each tier. -/
structure TierParams where
  model : String
  tokenBudget : Nat
  maxSteps : Nat
deriving DecidableEq

/-- Modelled from the spec: the fixed tier-to-parameters configuration table
(README: LOW 4096/15, MEDIUM 8192/30, HIGH 16384/50, all Claude Sonnet). -/
def tierParams : ComplexityTier → TierParams
  | .LOW => ⟨"claude-sonnet-4-20250514", 4096, 15⟩
  | .MEDIUM => ⟨"claude-sonnet-4-20250514", 8192, 30⟩
  | .HIGH => ⟨"claude-sonnet-4-20250514", 16384, 50⟩

/-- Contiguous substring test on character lists: pat occurs in the list. -/
def containsSub (pat : List Char) : List Char → Bool
  | [] => pat.isEmpty
  | c :: cs => pat.isPrefixOf (c :: cs) || containsSub pat cs

/-- Substring test used by the keyword heuristics: pat occurs inside s. -/
def strContains (s pat : String) : Bool :=
  containsSub pat.data s.data

/-- Modelled from the spec: keywords marking a complex task for the local
keyword/length-based heuristic. -/
def complexKeywords : List String :=
  ["refactor", "architecture", "migrate", "redesign", "rewrite", "async"]

/-- Modelled from the spec: deterministic keyword/length score of a task text. -/
def heuristicScore (task : String) : Nat :=
  2 * complexKeywords.countP (fun k => strContains task k)
    + (if 200 < task.length then 1 else 0)

/-- Modelled from the spec: the deterministic local keyword/length heuristic
used when no remote classifier verdict is available. -/
def localHeuristic (task : String) : ComplexityTier :=
  let s := heuristicScore task
  if 2 ≤ s then .HIGH else if 1 ≤ s then .MEDIUM else .LOW

/-- Modelled from the spec: remote classifier failure kinds
(timeout, malformed response, quota error). -/
inductive ClassifierError
  | timeout
  | malformed
  | quota
deriving DecidableEq

/-- Modelled from the spec: classify(task, index-summary, remote-classifier?).
A configured remote classifier maps the task text and a compact workspace
summary to a tier verdict or an error; absence and failure both fall back to
the local heuristic. -/
def classify (task : String) (indexSummary : String)
    (remote : Option (String → String → Except ClassifierError ComplexityTier)) :
    ComplexityTier :=
  match remote with
  | none => localHeuristic task
  | some f =>
    match f task indexSummary with
    | .ok tier => tier
    | .error _ => localHeuristic task

end CodingAgent

namespace Extension

/-! ## The tt.askAI command, embedded from src/extension.ts -/

/-- A selection range inside a document, by character offsets. -/
structure Selection where
  start : Nat
  stop : Nat
deriving DecidableEq

/-- A text document: the full text of the active file. -/
structure TextDocument where
  text : String
deriving DecidableEq

/-- document.getText() with no argument: the whole document. -/
def TextDocument.getTextAll (d : TextDocument) : String := d.text

/-- document.getText(selection): the text inside the selection range. -/
def TextDocument.getTextIn (d : TextDocument) (s : Selection) : String :=
  (d.text.take s.stop).drop s.start

/-- An active text editor: a document plus the current selection. -/
structure TextEditor where
  document : TextDocument
  selection : Selection
deriving DecidableEq

/-- JavaScript a || b on strings: the empty string is falsy. -/
def jsOrString (a b : String) : String :=
  if a = "" then b else a

/-- Observable effects of one run of the tt.askAI command handler. -/
inductive UiEffect
  | showErrorMessage (msg : String)
  | showInformationMessage (msg : String)
  | showQuickPick (items : List String)
  | showInputBox (promptText : String)
  | modelRequest (provider : String) (content : String)
deriving DecidableEq

/-- The environment one invocation of the command runs against: the optional
active editor, the user answers to the two dialogs (none when dismissed),
and the outcome of the provider call (the response text, or a thrown error). -/
structure AskAiEnv where
  activeTextEditor : Option TextEditor
  quickPickResult : Option String
  inputBoxResult : Option String
  modelOutcome : Except String String

/-- The tt.askAI command handler of src/extension.ts as a trace of effects:
no editor shows an error and returns; otherwise the text to analyze is the
selection or, when that is empty, the whole file; the user is asked for a
model and an API key (falsy answers return early); then the provider is
called and the response or the caught error is shown. -/
def askAI (env : AskAiEnv) : List UiEffect :=
  match env.activeTextEditor with
  | none => [UiEffect.showErrorMessage "No active file open to read."]
  | some editor =>
    let textToAnalyze :=
      jsOrString (editor.document.getTextIn editor.selection) editor.document.getTextAll
    let afterPick : List UiEffect :=
      match env.quickPickResult with
      | none => []
      | some modelChoice =>
        if modelChoice = "" then [] else
        UiEffect.showInputBox ("Enter " ++ modelChoice ++ " API Key (Temporary)") ::
        match env.inputBoxResult with
        | none => []
        | some apiKey =>
          if apiKey = "" then [] else
          UiEffect.showInformationMessage ("Analyzing code with " ++ modelChoice ++ "...") ::
          UiEffect.modelRequest (if modelChoice = "Claude" then "Claude" else "Gemini")
              ("Explain this code briefly:\n\n" ++ textToAnalyze) ::
          match env.modelOutcome with
          | .ok aiResponse => [UiEffect.showInformationMessage ("AI: " ++ aiResponse)]
          | .error err => [UiEffect.showErrorMessage ("AI Error: " ++ err)]
    UiEffect.showQuickPick ["Claude", "Gemini"] :: afterPick

end Extension

namespace CodingAgent

/-! ## Theorems: task router -/

end CodingAgent

/-- Claim C5: when the remote classifier is absent or its call fails, classify
returns the tier computed by the deterministic local keyword/length heuristic,
so classification never blocks on classifier unavailability. -/
theorem classify_falls_back_to_heuristic (task indexSummary : String)
    (remote : Option (String → String → Except CodingAgent.ClassifierError
        CodingAgent.ComplexityTier))
    (h : remote = none ∨ ∃ f e, remote = some f ∧ f task indexSummary = .error e) :
    CodingAgent.classify task indexSummary remote = CodingAgent.localHeuristic task := by
  rcases h with h | ⟨f, e, hf, he⟩
  · simp [CodingAgent.classify, h]
  · simp [CodingAgent.classify, hf, he]

/-- Witness for C5: a remote classifier failing with a timeout at a concrete
task falls back to the local heuristic verdict. -/
theorem classify_falls_back_to_heuristic_witness :
    CodingAgent.classify "fix the login bug" "3 files, python"
        (some (fun _ _ => .error CodingAgent.ClassifierError.timeout))
      = CodingAgent.localHeuristic "fix the login bug" :=
  classify_falls_back_to_heuristic "fix the login bug" "3 files, python"
    (some (fun _ _ => .error CodingAgent.ClassifierError.timeout))
    (Or.inr ⟨_, CodingAgent.ClassifierError.timeout, rfl, rfl⟩)

/-- Claim C6: classify without a remote classifier is a deterministic function
of the task text: two tasks with identical description text receive the same
tier, whatever the accompanying index summaries. -/
theorem classify_deterministic (t1 t2 s1 s2 : String) (h : t1 = t2) :
    CodingAgent.classify t1 s1 none = CodingAgent.classify t2 s2 none := by
  subst h
  rfl

/-- Witness for C6: two submissions of the same task text classify alike. -/
theorem classify_deterministic_witness :
    CodingAgent.classify "add tests" "summary a" none
      = CodingAgent.classify "add tests" "summary b" none :=
  classify_deterministic "add tests" "add tests" "summary a" "summary b" rfl

/-! ## Theorems: tt.askAI command -/

/-- Claim C9: with an active editor, every provider request issued by the
tt.askAI command carries the fixed prompt followed by the whole document text
when the selection extracts to the empty string, and by exactly the selected
text otherwise. -/
theorem askAI_analyzes_selection_or_document (env : Extension.AskAiEnv)
    (ed : Extension.TextEditor) (h : env.activeTextEditor = some ed) :
    ∀ p c, Extension.UiEffect.modelRequest p c ∈ Extension.askAI env →
      c = "Explain this code briefly:\n\n" ++
          (if ed.document.getTextIn ed.selection = "" then ed.document.getTextAll
           else ed.document.getTextIn ed.selection) := by
  intro p c hc
  obtain ⟨ae, qp, ib, mo⟩ := env
  simp only at h
  subst h
  unfold Extension.askAI at hc
  simp only [Extension.jsOrString] at hc
  rcases qp with _ | choice
  · simp at hc
  · split at hc
    · simp at hc
    · rcases ib with _ | key
      · simp at hc
      · split at hc
        · simp at hc
        · rcases mo with err | resp <;> simp_all

/-- Witness for C9: a concrete environment with an active editor and an empty
selection sends the whole file text to the provider. -/
theorem askAI_analyzes_selection_or_document_witness :
    ({ activeTextEditor := some ⟨⟨"print(1)"⟩, ⟨0, 0⟩⟩,
       quickPickResult := some "Claude",
       inputBoxResult := some "sk-key",
       modelOutcome := Except.ok "done" } : Extension.AskAiEnv).activeTextEditor
        = some ⟨⟨"print(1)"⟩, ⟨0, 0⟩⟩ ∧
    (∀ p c, Extension.UiEffect.modelRequest p c ∈ Extension.askAI
        { activeTextEditor := some ⟨⟨"print(1)"⟩, ⟨0, 0⟩⟩,
          quickPickResult := some "Claude",
          inputBoxResult := some "sk-key",
          modelOutcome := Except.ok "done" } →
      c = "Explain this code briefly:\n\n" ++
          (if (⟨⟨"print(1)"⟩, ⟨0, 0⟩⟩ : Extension.TextEditor).document.getTextIn
                (⟨⟨"print(1)"⟩, ⟨0, 0⟩⟩ : Extension.TextEditor).selection = ""
           then (⟨⟨"print(1)"⟩, ⟨0, 0⟩⟩ : Extension.TextEditor).document.getTextAll
           else (⟨⟨"print(1)"⟩, ⟨0, 0⟩⟩ : Extension.TextEditor).document.getTextIn
                (⟨⟨"print(1)"⟩, ⟨0, 0⟩⟩ : Extension.TextEditor).selection)) :=
  ⟨rfl, askAI_analyzes_selection_or_document _ _ rfl⟩

/-- Claim C10: with no active text editor, the tt.askAI command shows exactly
the error message about the missing file and returns: it never opens the model
picker, never prompts for an API key, and never issues a provider request. -/
theorem askAI_no_editor (env : Extension.AskAiEnv)
    (h : env.activeTextEditor = none) :
    Extension.askAI env = [Extension.UiEffect.showErrorMessage "No active file open to read."] ∧
    (∀ items, Extension.UiEffect.showQuickPick items ∉ Extension.askAI env) ∧
    (∀ t, Extension.UiEffect.showInputBox t ∉ Extension.askAI env) ∧
    (∀ p c, Extension.UiEffect.modelRequest p c ∉ Extension.askAI env) := by
  have he : Extension.askAI env
      = [Extension.UiEffect.showErrorMessage "No active file open to read."] := by
    unfold Extension.askAI
    rw [h]
  refine ⟨he, ?_, ?_, ?_⟩ <;> simp [he]

/-- Witness for C10: a concrete environment with no active editor produces
only the error message. -/
theorem askAI_no_editor_witness :
    Extension.askAI
        { activeTextEditor := none, quickPickResult := some "Claude",
          inputBoxResult := some "sk-key", modelOutcome := Except.ok "done" }
      = [Extension.UiEffect.showErrorMessage "No active file open to read."] :=
  (askAI_no_editor
    { activeTextEditor := none, quickPickResult := some "Claude",
      inputBoxResult := some "sk-key", modelOutcome := Except.ok "done" } rfl).1

namespace CodingAgent

/-! ## Workspace index data model and Context Assembler -/

/-- Modelled from the spec: FileEntry with relative path (unique key), size in
bytes, content fingerprint, detected language kind, last-scan timestamp
(the indexer implementation, indexer.py, is not present under src/). -/
structure FileEntry where
  path : String
  size : Nat
  fingerprint : Nat
  lang : String
  lastScan : Nat
deriving DecidableEq

/-- Modelled from the spec: SymbolEntry with a back-reference to the owning
path, symbol name, kind and line span. -/
structure SymbolEntry where
  ownerPath : String
  name : String
  kind : String
  lineStart : Nat
  lineStop : Nat
deriving DecidableEq

/-- One indexed file: its FileEntry and its ordered SymbolEntry sequence. -/
structure IndexEntry where
  file : FileEntry
  symbols : List SymbolEntry
deriving DecidableEq

/-- Modelled from the spec: WorkspaceIndex as the path-keyed sequence of
indexed files with their symbol sequences. -/
structure WorkspaceIndex where
  entries : List IndexEntry
deriving DecidableEq

/-- Modelled from the spec: a scored context candidate, carrying the bundle
entry fields (path, summary-or-excerpt, weight) plus its token estimate. -/
structure Candidate where
  path : String
  summary : String
  score : Nat
  tokens : Nat
deriving DecidableEq

/-- Modelled from the spec: ContextBundle, an ordered entry sequence plus the
computed total token estimate the bundle reports about itself. -/
structure ContextBundle where
  entries : List Candidate
  totalTokens : Nat
deriving DecidableEq

/-- Rough token estimate of a text: one token per four characters. -/
def tokenEstimate (s : String) : Nat := s.length / 4 + 1

/-- Summary text of an indexed file: its path followed by its symbol names. -/
def summaryOf (e : IndexEntry) : String :=
  e.file.path ++ ": " ++ String.intercalate ", " (e.symbols.map (fun s => s.name))

/-- Structural signal: well-known entry-point file names. -/
def isEntryPoint (path : String) : Bool :=
  ["main.py", "run.py", "__main__.py", "index.ts", "main.ts", "app.py"].any
    (fun n => strContains path n)

/-- Latest last-scan timestamp across the index, used as the recency anchor. -/
def latestScan (idx : WorkspaceIndex) : Nat :=
  (idx.entries.map (fun e => e.file.lastScan)).foldr max 0

/-- Modelled from the spec: deterministic weighted-sum relevance score
combining lexical overlap of the task text with the file path and symbol
names, recency of modification, and structural entry-point signals.  The
concrete weights are tunable per the spec design notes; any deterministic
choice satisfies the stated properties. -/
def relevanceScore (task : String) (idx : WorkspaceIndex) (e : IndexEntry) : Nat :=
  (if strContains task e.file.path then 8 else 0)
    + 2 * e.symbols.countP (fun s => strContains task s.name)
    + (if isEntryPoint e.file.path then 2 else 0)
    + (if latestScan idx ≤ e.file.lastScan then 1 else 0)

/-- Modelled from the spec: the scored candidate list derived from the index
for a task. -/
def candidatesOf (task : String) (idx : WorkspaceIndex) : List Candidate :=
  idx.entries.map (fun e =>
    { path := e.file.path
      summary := summaryOf e
      score := relevanceScore task idx e
      tokens := tokenEstimate (summaryOf e) })

/-- Modelled from the spec: the ranking order, descending by score with ties
broken by shorter path first. -/
def rankLe (a b : Candidate) : Bool :=
  b.score < a.score || (a.score == b.score && a.path.length ≤ b.path.length)

/-- Modelled from the spec: candidates ranked descending by score, ties by
shorter path first. -/
def rankCandidates (task : String) (idx : WorkspaceIndex) : List Candidate :=
  (candidatesOf task idx).mergeSort rankLe

/-- Total token estimate of a candidate list. -/
def sumTokens (l : List Candidate) : Nat := (l.map (fun c => c.tokens)).sum

/-- Modelled from the spec: the greedy packer.  Walking the ranked candidates
highest score first, a candidate is added when the running token total stays
within the budget and the count stays within the file cap; a candidate that
would overflow is skipped entirely, never truncated. -/
def greedyAdd (budget maxFiles : Nat) : List Candidate → Nat → Nat → List Candidate
  | [], _, _ => []
  | c :: rest, total, count =>
    if count < maxFiles ∧ total + c.tokens ≤ budget then
      c :: greedyAdd budget maxFiles rest (total + c.tokens) (count + 1)
    else
      greedyAdd budget maxFiles rest total count

/-- Modelled from the spec: assemble(task, index, token-budget, max-files),
greedy-by-score, budget-limited, count-limited packing of the ranked
candidates into a ContextBundle reporting its own total token estimate. -/
def assemble (task : String) (idx : WorkspaceIndex) (tokenBudget maxFiles : Nat) :
    ContextBundle :=
  let chosen := greedyAdd tokenBudget maxFiles (rankCandidates task idx) 0 0
  { entries := chosen, totalTokens := sumTokens chosen }

theorem sumTokens_nil : sumTokens [] = 0 := rfl

theorem sumTokens_cons (c : Candidate) (l : List Candidate) :
    sumTokens (c :: l) = c.tokens + sumTokens l := by
  simp [sumTokens]

theorem greedyAdd_bound (budget maxFiles : Nat) :
    ∀ (l : List Candidate) (total count : Nat), total ≤ budget → count ≤ maxFiles →
      total + sumTokens (greedyAdd budget maxFiles l total count) ≤ budget ∧
      count + (greedyAdd budget maxFiles l total count).length ≤ maxFiles := by
  intro l
  induction l with
  | nil =>
    intro total count h1 h2
    simp [greedyAdd, sumTokens_nil]
    omega
  | cons c rest ih =>
    intro total count h1 h2
    by_cases hcond : count < maxFiles ∧ total + c.tokens ≤ budget
    · have hrec := ih (total + c.tokens) (count + 1) hcond.2 (by omega)
      simp only [greedyAdd, if_pos hcond, sumTokens_cons, List.length_cons]
      omega
    · have hrec := ih total count h1 h2
      simp only [greedyAdd, if_neg hcond]
      omega

theorem greedyAdd_sublist (budget maxFiles : Nat) :
    ∀ (l : List Candidate) (total count : Nat),
      (greedyAdd budget maxFiles l total count).Sublist l := by
  intro l
  induction l with
  | nil => intro total count; simp [greedyAdd]
  | cons c rest ih =>
    intro total count
    by_cases hcond : count < maxFiles ∧ total + c.tokens ≤ budget
    · simpa only [greedyAdd, if_pos hcond] using (ih (total + c.tokens) (count + 1)).cons₂ c
    · simpa only [greedyAdd, if_neg hcond] using (ih total count).cons c

theorem greedyAdd_append (budget maxFiles : Nat) :
    ∀ (l1 l2 : List Candidate) (total count : Nat),
      greedyAdd budget maxFiles (l1 ++ l2) total count =
        greedyAdd budget maxFiles l1 total count ++
        greedyAdd budget maxFiles l2
          (total + sumTokens (greedyAdd budget maxFiles l1 total count))
          (count + (greedyAdd budget maxFiles l1 total count).length) := by
  intro l1
  induction l1 with
  | nil => intro l2 total count; simp [greedyAdd, sumTokens_nil]
  | cons c rest ih =>
    intro l2 total count
    by_cases hcond : count < maxFiles ∧ total + c.tokens ≤ budget
    · simp only [List.cons_append, greedyAdd, if_pos hcond, ih, sumTokens_cons,
        List.length_cons, List.cons_append]
      have h1 : total + (c.tokens
            + sumTokens (greedyAdd budget maxFiles rest (total + c.tokens) (count + 1)))
          = total + c.tokens
            + sumTokens (greedyAdd budget maxFiles rest (total + c.tokens) (count + 1)) := by
        omega
      have h2 : count
            + ((greedyAdd budget maxFiles rest (total + c.tokens) (count + 1)).length + 1)
          = count + 1
            + (greedyAdd budget maxFiles rest (total + c.tokens) (count + 1)).length := by
        omega
      rw [h1, h2]
      exact congrArg (fun t => c :: t) (ih l2 (total + c.tokens) (count + 1))
    · simp only [List.cons_append, greedyAdd, if_neg hcond, ih]
      exact ih l2 total count

theorem rankLe_total (a b : Candidate) : rankLe a b || rankLe b a := by
  simp only [rankLe, Bool.or_eq_true, Bool.and_eq_true, decide_eq_true_eq, beq_iff_eq]
  omega

theorem rankLe_trans (a b c : Candidate) :
    rankLe a b = true → rankLe b c = true → rankLe a c = true := by
  simp only [rankLe, Bool.or_eq_true, Bool.and_eq_true, decide_eq_true_eq, beq_iff_eq]
  omega

theorem rankCandidates_sorted (task : String) (idx : WorkspaceIndex) :
    (rankCandidates task idx).Pairwise (fun a b => rankLe a b = true) :=
  List.sorted_mergeSort rankLe_trans rankLe_total (candidatesOf task idx)

end CodingAgent

/-! ## Theorems: context assembler -/

/-- Claim C1: every bundle produced by assemble reports a total token estimate
within the supplied token budget and an entry count within max-files. -/
theorem assemble_within_limits (task : String) (idx : CodingAgent.WorkspaceIndex)
    (tokenBudget maxFiles : Nat) :
    (CodingAgent.assemble task idx tokenBudget maxFiles).totalTokens ≤ tokenBudget ∧
    (CodingAgent.assemble task idx tokenBudget maxFiles).entries.length ≤ maxFiles := by
  have h := CodingAgent.greedyAdd_bound tokenBudget maxFiles
    (CodingAgent.rankCandidates task idx) 0 0 (Nat.zero_le _) (Nat.zero_le _)
  simpa [CodingAgent.assemble] using h

/-- Claim C2: assemble packs by the greedy-by-score algorithm.  The ranked
candidate list is sorted descending by score with ties broken by shorter path
first; the bundle entries form a sublist of that ranking (candidates enter
whole and in rank order); and at every position of the ranking, the candidate
is added exactly when the running token total of the previously selected
entries plus its own estimate stays within the budget and the selected count
is still below max-files, and is skipped entirely otherwise. -/
theorem assemble_greedy_by_score (task : String) (idx : CodingAgent.WorkspaceIndex)
    (tokenBudget maxFiles : Nat)
    (l1 : List CodingAgent.Candidate) (c : CodingAgent.Candidate)
    (l2 : List CodingAgent.Candidate)
    (h : CodingAgent.rankCandidates task idx = l1 ++ c :: l2) :
    (CodingAgent.rankCandidates task idx).Pairwise
        (fun a b => CodingAgent.rankLe a b = true) ∧
    (CodingAgent.assemble task idx tokenBudget maxFiles).entries.Sublist
        (CodingAgent.rankCandidates task idx) ∧
    (CodingAgent.assemble task idx tokenBudget maxFiles).entries =
      CodingAgent.greedyAdd tokenBudget maxFiles l1 0 0 ++
        (if (CodingAgent.greedyAdd tokenBudget maxFiles l1 0 0).length < maxFiles ∧
            CodingAgent.sumTokens (CodingAgent.greedyAdd tokenBudget maxFiles l1 0 0)
              + c.tokens ≤ tokenBudget
         then c :: CodingAgent.greedyAdd tokenBudget maxFiles l2
                (CodingAgent.sumTokens (CodingAgent.greedyAdd tokenBudget maxFiles l1 0 0)
                  + c.tokens)
                ((CodingAgent.greedyAdd tokenBudget maxFiles l1 0 0).length + 1)
         else CodingAgent.greedyAdd tokenBudget maxFiles l2
                (CodingAgent.sumTokens (CodingAgent.greedyAdd tokenBudget maxFiles l1 0 0))
                ((CodingAgent.greedyAdd tokenBudget maxFiles l1 0 0).length)) := by
  refine ⟨CodingAgent.rankCandidates_sorted task idx, ?_, ?_⟩
  · exact CodingAgent.greedyAdd_sublist tokenBudget maxFiles _ 0 0
  · show CodingAgent.greedyAdd tokenBudget maxFiles
        (CodingAgent.rankCandidates task idx) 0 0 = _
    rw [h, CodingAgent.greedyAdd_append]
    simp only [CodingAgent.greedyAdd, Nat.zero_add]

/-- A one-file workspace index used as concrete witness input. -/
def wIdx1 : CodingAgent.WorkspaceIndex :=
  ⟨[⟨⟨"a.py", 0, 0, "python", 0⟩, []⟩]⟩

/-- The single ranked candidate arising from wIdx1 for the empty task. -/
def wCand1 : CodingAgent.Candidate :=
  ⟨"a.py", "a.py: ", 1, 2⟩

/-- Witness for C2: at a concrete one-file workspace the ranking decomposes
around its only candidate, and that candidate fits and is packed. -/
theorem assemble_greedy_by_score_witness :
    (CodingAgent.assemble "" wIdx1 100 4).entries = [wCand1] := by
  have h := assemble_greedy_by_score "" wIdx1 100 4 [] wCand1 []
    (by rw [CodingAgent.rankCandidates,
          show CodingAgent.candidatesOf "" wIdx1 = [wCand1] from rfl,
          List.mergeSort_singleton, List.nil_append])
  have h3 := h.2.2
  simpa [CodingAgent.greedyAdd, CodingAgent.sumTokens, wCand1] using h3

namespace CodingAgent

/-! ## Workspace Indexer -/

/-- A file of the workspace tree as the scanner reads it. -/
structure RawFile where
  path : String
  content : String
deriving DecidableEq

/-- Modelled from the spec: the content fingerprint, a deterministic hash of
the file contents used for cache invalidation. -/
def fingerprint (s : String) : Nat :=
  s.data.foldl (fun h c => (h * 31 + c.toNat) % 18446744073709551616) 5381

/-- Splits a character list into lines. -/
def splitLinesAux (acc : List Char) : List Char → List (List Char)
  | [] => [acc.reverse]
  | c :: cs =>
    if c = '\n' then acc.reverse :: splitLinesAux [] cs
    else splitLinesAux (c :: acc) cs

/-- The lines of a text. -/
def splitLines (s : String) : List (List Char) := splitLinesAux [] s.data

/-- Best-effort symbol declaration recognized on one line. -/
def lineSymbol (path : String) (lineNo : Nat) (line : List Char) : Option SymbolEntry :=
  if "def ".data.isPrefixOf line then
    some ⟨path, ⟨line.drop 4⟩, "function", lineNo, lineNo⟩
  else if "class ".data.isPrefixOf line then
    some ⟨path, ⟨line.drop 6⟩, "class", lineNo, lineNo⟩
  else if "function ".data.isPrefixOf line then
    some ⟨path, ⟨line.drop 9⟩, "function", lineNo, lineNo⟩
  else none

/-- Modelled from the spec: best-effort per-language symbol extraction;
lines without a recognized declaration yield no symbols, and extraction
never fails. -/
def extractSymbols (path content : String) : List SymbolEntry :=
  (splitLines content).enum.filterMap (fun p => lineSymbol path p.1 p.2)

/-- Detected language kind from the file extension. -/
def detectLang (path : String) : String :=
  if ".py".data.isSuffixOf path.data then "python"
  else if ".ts".data.isSuffixOf path.data then "typescript"
  else if ".js".data.isSuffixOf path.data then "javascript"
  else "text"

/-- Modelled from the spec: one record of the index cache store, holding the
fingerprint with the parsed FileEntry and SymbolEntry list. -/
structure CacheEntry where
  fingerprint : Nat
  file : FileEntry
  symbols : List SymbolEntry
deriving DecidableEq

/-- Modelled from the spec: the index cache store, a path-keyed mapping. -/
abbrev IndexCache := List (String × CacheEntry)

/-- Parses one file afresh into a cache entry. -/
def parseFile (now : Nat) (f : RawFile) : CacheEntry :=
  { fingerprint := fingerprint f.content
    file := { path := f.path, size := f.content.length,
              fingerprint := fingerprint f.content,
              lang := detectLang f.path, lastScan := now }
    symbols := extractSymbols f.path f.content }

/-- Modelled from the spec: scanning one file against the cache.  A cached
entry for the path with a matching fingerprint is reused wholesale without
re-parsing (parse counter 0); otherwise the file is parsed (counter 1). -/
def scanFile (now : Nat) (cache : IndexCache) (f : RawFile) : CacheEntry × Nat :=
  match cache.lookup f.path with
  | some ce =>
    if ce.fingerprint == fingerprint f.content then (ce, 0) else (parseFile now f, 1)
  | none => (parseFile now f, 1)

/-- Modelled from the spec: enumeration excludes ignore-pattern matches and
files exceeding max-file-size. -/
def includedFiles (ignorePatterns : List String) (maxFileSize : Nat)
    (fs : List RawFile) : List RawFile :=
  fs.filter (fun f =>
    !(ignorePatterns.any (fun p => strContains f.path p)) && f.content.length ≤ maxFileSize)

/-- Result of a scan: the index, the refreshed cache store, and the number of
files that were actually parsed (instrumentation for the cache-hit invariant). -/
structure ScanResult where
  index : WorkspaceIndex
  cache : IndexCache
  parsedCount : Nat

/-- Modelled from the spec: scan(root, ignore-patterns, max-file-size) over a
filesystem snapshot fs, reading the cache store and writing it back. -/
def scan (now : Nat) (ignorePatterns : List String) (maxFileSize : Nat)
    (cache : IndexCache) (fs : List RawFile) : ScanResult :=
  let inc := includedFiles ignorePatterns maxFileSize fs
  { index := ⟨inc.map (fun f => { file := (scanFile now cache f).1.file,
                                  symbols := (scanFile now cache f).1.symbols })⟩
    cache := inc.map (fun f => (f.path, (scanFile now cache f).1))
    parsedCount := (inc.map (fun f => (scanFile now cache f).2)).sum }

theorem lookup_map_entries (E : RawFile → CacheEntry) :
    ∀ (l : List RawFile) (f : RawFile),
      (l.map (fun g => g.path)).Nodup → f ∈ l →
      (l.map (fun g => (g.path, E g))).lookup f.path = some (E f) := by
  intro l
  induction l with
  | nil => intro f _ hf; cases hf
  | cons g l ih =>
    intro f hnd hf
    simp only [List.map_cons, List.nodup_cons] at hnd
    rcases List.mem_cons.mp hf with rfl | hf2
    · simp [List.lookup]
    · have hne : (f.path == g.path) = false := by
        refine beq_eq_false_iff_ne.mpr (fun he => hnd.1 ?_)
        rw [← he]
        exact List.mem_map_of_mem (fun g => g.path) hf2
      simp only [List.map_cons, List.lookup, hne]
      exact ih f hnd.2 hf2

theorem sum_map_zero : ∀ (l : List RawFile), (l.map (fun _ => 0)).sum = 0 := by
  intro l
  induction l with
  | nil => rfl
  | cons g l ih => simp [ih]

theorem scanFile_cache_hit (now1 now2 : Nat) (pats : List String) (maxSize : Nat)
    (fs : List RawFile) (hnd : (fs.map (fun f => f.path)).Nodup) (f : RawFile)
    (hf : f ∈ includedFiles pats maxSize fs) :
    scanFile now2 (scan now1 pats maxSize [] fs).cache f = (parseFile now1 f, 0) := by
  have hinc : (includedFiles pats maxSize fs).map (fun g => g.path)
      |>.Nodup := by
    refine List.Nodup.sublist ?_ hnd
    exact List.Sublist.map _ (List.filter_sublist fs)
  have hlookup : ((includedFiles pats maxSize fs).map
        (fun g => (g.path, parseFile now1 g))).lookup f.path = some (parseFile now1 f) :=
    lookup_map_entries (fun g => parseFile now1 g) _ f hinc hf
  have hcache : (scan now1 pats maxSize [] fs).cache
      = (includedFiles pats maxSize fs).map (fun g => (g.path, parseFile now1 g)) := by
    simp [scan, scanFile, List.lookup]
  rw [scanFile, hcache, hlookup]
  simp [parseFile]

end CodingAgent

/-! ## Theorems: workspace indexer -/

/-- Claim C7: with no filesystem change between the calls, a second scan over
the cache written by the first produces an identical index and performs zero
re-parsing: every included file is a cache hit keyed by its content
fingerprint. -/
theorem scan_cache_hit_invariant (now1 now2 : Nat) (pats : List String)
    (maxSize : Nat) (fs : List CodingAgent.RawFile)
    (hnd : (fs.map (fun f => f.path)).Nodup) :
    (CodingAgent.scan now2 pats maxSize
        (CodingAgent.scan now1 pats maxSize [] fs).cache fs).index
      = (CodingAgent.scan now1 pats maxSize [] fs).index ∧
    (CodingAgent.scan now2 pats maxSize
        (CodingAgent.scan now1 pats maxSize [] fs).cache fs).cache
      = (CodingAgent.scan now1 pats maxSize [] fs).cache ∧
    (CodingAgent.scan now2 pats maxSize
        (CodingAgent.scan now1 pats maxSize [] fs).cache fs).parsedCount = 0 := by
  have hpoint : ∀ f ∈ CodingAgent.includedFiles pats maxSize fs,
      CodingAgent.scanFile now2 (CodingAgent.scan now1 pats maxSize [] fs).cache f
        = (CodingAgent.parseFile now1 f, 0) :=
    fun f hf => CodingAgent.scanFile_cache_hit now1 now2 pats maxSize fs hnd f hf
  have hfirst : ∀ f ∈ CodingAgent.includedFiles pats maxSize fs,
      CodingAgent.scanFile now1 ([] : CodingAgent.IndexCache) f
        = (CodingAgent.parseFile now1 f, 1) := by
    intro f _
    simp [CodingAgent.scanFile, List.lookup]
  refine ⟨?_, ?_, ?_⟩
  · show CodingAgent.WorkspaceIndex.mk _ = CodingAgent.WorkspaceIndex.mk _
    congr 1
    refine List.map_congr_left (fun f hf => ?_)
    rw [hpoint f hf, hfirst f hf]
  · show List.map _ _ = List.map _ _
    refine List.map_congr_left (fun f hf => ?_)
    rw [hpoint f hf, hfirst f hf]
  · show (List.map _ _).sum = 0
    have : (CodingAgent.includedFiles pats maxSize fs).map
        (fun f => (CodingAgent.scanFile now2
          (CodingAgent.scan now1 pats maxSize [] fs).cache f).2)
      = (CodingAgent.includedFiles pats maxSize fs).map (fun _ => 0) := by
      refine List.map_congr_left (fun f hf => ?_)
      rw [hpoint f hf]
    rw [this, CodingAgent.sum_map_zero]

/-- Witness for C7: a concrete two-file workspace with distinct paths scans to
the same index twice with zero re-parsing on the second pass. -/
theorem scan_cache_hit_invariant_witness :
    (CodingAgent.scan 7 [] 1000
        (CodingAgent.scan 3 [] 1000 []
          [⟨"a.py", "def f"⟩, ⟨"b.py", "x"⟩]).cache
        [⟨"a.py", "def f"⟩, ⟨"b.py", "x"⟩]).parsedCount = 0 :=
  (scan_cache_hit_invariant 3 7 [] 1000 [⟨"a.py", "def f"⟩, ⟨"b.py", "x"⟩]
    (by simp)).2.2

namespace CodingAgent

/-! ## Agent Orchestration Loop -/

/-- Modelled from the spec: the states of the orchestration state machine
(the loop implementation, agent.py, is not present under src/). -/
inductive Phase
  | PLANNING
  | EXECUTING
  | VALIDATING
  | FIXING
  | COMPLETE
  | FAILED
  | EXHAUSTED
deriving DecidableEq

/-- RUNNING means any of PLANNING, EXECUTING, VALIDATING, FIXING. -/
def Phase.isRunning : Phase → Bool
  | .PLANNING => true
  | .EXECUTING => true
  | .VALIDATING => true
  | .FIXING => true
  | _ => false

/-- Modelled from the spec: the model or validator response consumed by one
step of the loop. -/
inductive ModelEvent
  | plannedAction
  | toolCall (name : String)
  | signalsDone
  | validationPass
  | validationFail
  | transportError
deriving DecidableEq

/-- Modelled from the spec: the transition guards of the state machine.
A well-formed action moves PLANNING to EXECUTING; tool calls stay in
EXECUTING or FIXING; a done signal moves to VALIDATING; validation success
completes and validation failure moves to FIXING; a model transport error is
fatal in every running state; terminal states absorb every event. -/
def transition : Phase → ModelEvent → Phase
  | .PLANNING, .plannedAction => .EXECUTING
  | .PLANNING, .transportError => .FAILED
  | .PLANNING, _ => .PLANNING
  | .EXECUTING, .signalsDone => .VALIDATING
  | .EXECUTING, .transportError => .FAILED
  | .EXECUTING, _ => .EXECUTING
  | .VALIDATING, .validationPass => .COMPLETE
  | .VALIDATING, .validationFail => .FIXING
  | .VALIDATING, .transportError => .FAILED
  | .VALIDATING, _ => .VALIDATING
  | .FIXING, .signalsDone => .VALIDATING
  | .FIXING, .transportError => .FAILED
  | .FIXING, _ => .FIXING
  | p, _ => p

/-- Modelled from the spec: AgentSession status and step counter (the
transcript component is treated separately by the pruning operation). -/
structure AgentSession where
  phase : Phase
  steps : Nat
deriving DecidableEq

/-- Modelled from the spec: the bounded loop.  While the session is running
each consumed event costs one step against the single global step counter;
when the counter has already reached the tier limit and one more step would
be required, the session becomes EXHAUSTED; a terminal status stops the loop
and later events are ignored. -/
def runLoop (maxSteps : Nat) : AgentSession → List ModelEvent → AgentSession
  | s, [] => s
  | s, e :: es =>
    if s.phase.isRunning then
      if s.steps < maxSteps then
        runLoop maxSteps ⟨transition s.phase e, s.steps + 1⟩ es
      else
        { s with phase := .EXHAUSTED }
    else s

/-- A fresh session starts in PLANNING with zero steps used. -/
def initialSession : AgentSession := ⟨.PLANNING, 0⟩

theorem runLoop_not_running (maxSteps : Nat) :
    ∀ (es : List ModelEvent) (s : AgentSession), s.phase.isRunning = false →
      runLoop maxSteps s es = s := by
  intro es
  cases es with
  | nil => intro s _; rfl
  | cons e es =>
    intro s hs
    simp [runLoop, hs]

theorem transition_not_exhausted (p : Phase) (e : ModelEvent)
    (hp : p.isRunning = true) : transition p e ≠ Phase.EXHAUSTED := by
  cases p <;> cases e <;> simp_all [transition, Phase.isRunning]

theorem runLoop_steps_le (maxSteps : Nat) :
    ∀ (es : List ModelEvent) (s : AgentSession), s.steps ≤ maxSteps →
      (runLoop maxSteps s es).steps ≤ maxSteps := by
  intro es
  induction es with
  | nil => intro s hs; exact hs
  | cons e es ih =>
    intro s hs
    by_cases hrun : s.phase.isRunning = true
    · by_cases hlt : s.steps < maxSteps
      · simp only [runLoop, hrun, if_true, if_pos hlt]
        exact ih ⟨transition s.phase e, s.steps + 1⟩ hlt
      · simp only [runLoop, hrun, if_true, if_neg hlt]
        exact hs
    · rw [runLoop_not_running maxSteps (e :: es) s (by simpa using hrun)]
      exact hs

theorem runLoop_exhausted_iff (maxSteps : Nat) :
    ∀ (es : List ModelEvent) (s : AgentSession),
      s.phase.isRunning = true → s.steps ≤ maxSteps →
      ((runLoop maxSteps s es).phase = Phase.EXHAUSTED ↔
        (maxSteps - s.steps < es.length ∧
         (runLoop maxSteps s (es.take (maxSteps - s.steps))).phase.isRunning = true)) := by
  intro es
  induction es with
  | nil =>
    intro s hrun hle
    have hne : s.phase ≠ Phase.EXHAUSTED := by
      intro h
      rw [h] at hrun
      simp [Phase.isRunning] at hrun
    simp [runLoop, hne]
  | cons e es ih =>
    intro s hrun hle
    by_cases hlt : s.steps < maxSteps
    · have hk : maxSteps - s.steps = (maxSteps - (s.steps + 1)) + 1 := by omega
      have hstep : runLoop maxSteps s (e :: es)
          = runLoop maxSteps ⟨transition s.phase e, s.steps + 1⟩ es := by
        simp [runLoop, hrun, hlt]
      have htake : runLoop maxSteps s ((e :: es).take (maxSteps - s.steps))
          = runLoop maxSteps ⟨transition s.phase e, s.steps + 1⟩
              (es.take (maxSteps - (s.steps + 1))) := by
        rw [hk]
        simp [runLoop, hrun, hlt]
      by_cases hrun2 : (transition s.phase e).isRunning = true
      · have hih := ih ⟨transition s.phase e, s.steps + 1⟩ hrun2 hlt
        have hproj : ({ phase := transition s.phase e, steps := s.steps + 1 } :
            AgentSession).steps = s.steps + 1 := rfl
        rw [hstep, htake, hih, hproj, List.length_cons]
        constructor
        · rintro ⟨h1, h2⟩
          exact ⟨by omega, h2⟩
        · rintro ⟨h1, h2⟩
          exact ⟨by omega, h2⟩
      · have hnr : (transition s.phase e).isRunning = false := by
          simpa using hrun2
        rw [hstep, htake, runLoop_not_running maxSteps es _ hnr,
          runLoop_not_running maxSteps _ _ hnr]
        simp [hnr, transition_not_exhausted s.phase e hrun]
    · have hk : maxSteps - s.steps = 0 := by omega
      have hstep : runLoop maxSteps s (e :: es) = { s with phase := Phase.EXHAUSTED } := by
        simp [runLoop, hrun, hlt]
      rw [hstep, hk]
      simp [runLoop, hrun]

end CodingAgent

/-! ## Theorems: orchestration loop -/

/-- Claim C3: for a tier with max step count N, the loop never uses more than
N steps across the running states combined, and it ends EXHAUSTED exactly
when the event stream would demand an (N+1)-th step while the session is
still running after its first N steps. -/
theorem runLoop_step_budget (tier : CodingAgent.ComplexityTier)
    (es : List CodingAgent.ModelEvent) :
    (CodingAgent.runLoop (CodingAgent.tierParams tier).maxSteps
        CodingAgent.initialSession es).steps ≤ (CodingAgent.tierParams tier).maxSteps ∧
    ((CodingAgent.runLoop (CodingAgent.tierParams tier).maxSteps
          CodingAgent.initialSession es).phase = CodingAgent.Phase.EXHAUSTED ↔
      ((CodingAgent.tierParams tier).maxSteps < es.length ∧
       (CodingAgent.runLoop (CodingAgent.tierParams tier).maxSteps
           CodingAgent.initialSession
           (es.take (CodingAgent.tierParams tier).maxSteps)).phase.isRunning = true)) := by
  constructor
  · exact CodingAgent.runLoop_steps_le _ es CodingAgent.initialSession (Nat.zero_le _)
  · have h := CodingAgent.runLoop_exhausted_iff (CodingAgent.tierParams tier).maxSteps es
      CodingAgent.initialSession rfl (Nat.zero_le _)
    simpa [CodingAgent.initialSession] using h

/-- Claim C8: a model transport error while the session is running and within
its step budget drives the session to the FAILED terminal status in every
running state, and the loop returns that FAILED session rather than crashing,
ignoring any later events. -/
theorem model_failure_fails_session (maxSteps : Nat) (s : CodingAgent.AgentSession)
    (es : List CodingAgent.ModelEvent)
    (hrun : s.phase.isRunning = true) (hlt : s.steps < maxSteps) :
    CodingAgent.transition s.phase CodingAgent.ModelEvent.transportError
      = CodingAgent.Phase.FAILED ∧
    (CodingAgent.runLoop maxSteps s (CodingAgent.ModelEvent.transportError :: es)).phase
      = CodingAgent.Phase.FAILED := by
  have htr : CodingAgent.transition s.phase CodingAgent.ModelEvent.transportError
      = CodingAgent.Phase.FAILED := by
    cases hp : s.phase <;> simp_all [CodingAgent.transition, CodingAgent.Phase.isRunning]
  refine ⟨htr, ?_⟩
  have hstep : CodingAgent.runLoop maxSteps s
      (CodingAgent.ModelEvent.transportError :: es)
      = CodingAgent.runLoop maxSteps ⟨CodingAgent.Phase.FAILED, s.steps + 1⟩ es := by
    simp [CodingAgent.runLoop, hrun, hlt, htr]
  rw [hstep, CodingAgent.runLoop_not_running maxSteps es
    ⟨CodingAgent.Phase.FAILED, s.steps + 1⟩ rfl]

/-- Witness for C8: a concrete running session hit by a transport error on its
first step ends FAILED. -/
theorem model_failure_fails_session_witness :
    (CodingAgent.runLoop 15 CodingAgent.initialSession
        [CodingAgent.ModelEvent.transportError]).phase = CodingAgent.Phase.FAILED :=
  (model_failure_fails_session 15 CodingAgent.initialSession [] rfl (by decide)).2

namespace CodingAgent

/-! ## Transcript pruning -/

/-- Modelled from the spec: a ConversationMessage of the transcript with its
role, estimated token cost and content; a ToolCall and its ToolResult carry
the pairing identifier that links them 1:1 within the transcript. -/
inductive Msg
  | system (tokens : Nat) (content : String)
  | user (tokens : Nat) (content : String)
  | assistant (tokens : Nat) (content : String)
  | toolCall (id : Nat) (tokens : Nat) (name : String) (args : String)
  | toolResult (id : Nat) (tokens : Nat) (payload : String)
deriving DecidableEq

/-- Estimated token cost of a message. -/
def Msg.tokens : Msg → Nat
  | .system t _ => t
  | .user t _ => t
  | .assistant t _ => t
  | .toolCall _ t _ _ => t
  | .toolResult _ t _ => t

/-- The message is the system prompt. -/
def Msg.isSystem : Msg → Bool
  | .system _ _ => true
  | _ => false

/-- The pairing identifier of a ToolCall or ToolResult, none otherwise. -/
def Msg.pairId : Msg → Option Nat
  | .toolCall i _ _ _ => some i
  | .toolResult i _ _ => some i
  | _ => none

/-- The message is the ToolCall with pairing identifier i. -/
def isCallId (i : Nat) : Msg → Bool
  | .toolCall j _ _ _ => j == i
  | _ => false

/-- The message is the ToolResult with pairing identifier i. -/
def isResId (i : Nat) : Msg → Bool
  | .toolResult j _ _ => j == i
  | _ => false

/-- Estimated token total of a transcript segment. -/
def msgTokens (l : List Msg) : Nat := (l.map Msg.tokens).sum

/-- All pairing identifiers occurring in a transcript segment. -/
def msgIds (l : List Msg) : List Nat := l.filterMap Msg.pairId

/-- A message pruning must keep: the system prompt, and any ToolCall or
ToolResult whose partner sits in the protected most recent exchange. -/
def keepForced (protIds : List Nat) (m : Msg) : Bool :=
  m.isSystem ||
    (match m.pairId with
     | some i => protIds.contains i
     | none => false)

/-- Modelled from the spec: the oldest-first removal walk over the prunable
region.  outTok is the token total of everything outside the walk that stays
in the transcript; while the overall estimate still exceeds the threshold,
the walk drops the oldest prunable message, removing a ToolCall or ToolResult
together with its partner, and keeps forced messages. -/
def pruneBody (threshold outTok : Nat) (protIds : List Nat) : List Msg → List Msg
  | [] => []
  | m :: rest =>
    if msgTokens (m :: rest) + outTok ≤ threshold then m :: rest
    else if keepForced protIds m then
      m :: pruneBody threshold (outTok + m.tokens) protIds rest
    else
      match m.pairId with
      | none => pruneBody threshold outTok protIds rest
      | some i =>
        pruneBody threshold outTok protIds (rest.filter (fun x => !(x.pairId == some i)))
termination_by l => l.length
decreasing_by
  · simp [Nat.lt_succ_iff]
  · simp [Nat.lt_succ_iff]
  · exact Nat.lt_succ_of_le (List.length_filter_le _ _)

/-- Modelled from the spec: transcript pruning.  The most recent exchange
(the final two messages) is protected; the older region is walked oldest
first, dropping prunable messages until the token estimate is back under the
threshold; the system prompt is never removed and ToolCall/ToolResult pairs
are removed together or not at all. -/
def prune (threshold : Nat) (t : List Msg) : List Msg :=
  pruneBody threshold (msgTokens (t.drop (t.length - 2)))
    (msgIds (t.drop (t.length - 2))) (t.take (t.length - 2))
    ++ t.drop (t.length - 2)

/-- Every pairing identifier present has both its ToolCall and its ToolResult
present: no unpaired ToolCall or ToolResult. -/
def wellPaired (l : List Msg) : Prop :=
  ∀ i ∈ msgIds l, l.any (isCallId i) = true ∧ l.any (isResId i) = true

/-- Pairing identifiers are unique: at most one ToolCall and one ToolResult
per identifier. -/
def uniquePairs (l : List Msg) : Prop :=
  ∀ i ∈ msgIds l, l.countP (isCallId i) ≤ 1 ∧ l.countP (isResId i) ≤ 1

end CodingAgent

namespace CodingAgent

theorem pairId_of_isCallId {i : Nat} {m : Msg} (h : isCallId i m = true) :
    m.pairId = some i := by
  cases m <;> simp_all [isCallId, Msg.pairId]

theorem pairId_of_isResId {i : Nat} {m : Msg} (h : isResId i m = true) :
    m.pairId = some i := by
  cases m <;> simp_all [isResId, Msg.pairId]

theorem isCallId_false_of_ne {i : Nat} {m : Msg} (h : m.pairId ≠ some i) :
    isCallId i m = false := by
  cases m <;> simp_all [isCallId, Msg.pairId]

theorem isResId_false_of_ne {i : Nat} {m : Msg} (h : m.pairId ≠ some i) :
    isResId i m = false := by
  cases m <;> simp_all [isResId, Msg.pairId]

theorem any_congrP : ∀ (l : List Msg) (p q : Msg → Bool),
    (∀ x ∈ l, p x = q x) → l.any p = l.any q := by
  intro l
  induction l with
  | nil => intro p q _; rfl
  | cons m l ih =>
    intro p q h
    simp only [List.any_cons, h m (List.mem_cons_self m l),
      ih p q (fun x hx => h x (List.mem_cons_of_mem m hx))]

theorem mem_msgIds {l : List Msg} {i : Nat} :
    i ∈ msgIds l ↔ ∃ m ∈ l, m.pairId = some i := by
  simp [msgIds, List.mem_filterMap]

theorem keepForced_pair {protIds : List Nat} {m : Msg} {j : Nat}
    (hk : keepForced protIds m = true) (hj : m.pairId = some j) :
    protIds.contains j = true := by
  rw [keepForced, Bool.or_eq_true] at hk
  rcases hk with hs | hc
  · exfalso
    cases m <;> simp_all [Msg.isSystem, Msg.pairId]
  · simpa [hj] using hc

theorem keepForced_eq_false {protIds : List Nat} {m : Msg}
    (h : ¬ keepForced protIds m = true) :
    m.isSystem = false ∧ ∀ j, m.pairId = some j → protIds.contains j = false := by
  rw [Bool.not_eq_true, keepForced, Bool.or_eq_false_iff] at h
  refine ⟨h.1, fun j hj => ?_⟩
  have h2 := h.2
  simpa [hj] using h2

theorem strip_cons_hyps {i : Nat} {m : Msg} {L : List Msg}
    (hm : m.pairId ≠ some i)
    (h1 : (m :: L).countP (isCallId i) ≤ 1)
    (h2 : (m :: L).countP (isResId i) ≤ 1)
    (h3 : (m :: L).any (isCallId i) = (m :: L).any (isResId i)) :
    L.countP (isCallId i) ≤ 1 ∧ L.countP (isResId i) ≤ 1 ∧
      L.any (isCallId i) = L.any (isResId i) := by
  have hc := isCallId_false_of_ne hm
  have hr := isResId_false_of_ne hm
  simp only [List.countP_cons, hc, hr, List.any_cons, Bool.false_or] at h1 h2 h3
  refine ⟨by omega, by omega, h3⟩

theorem pruneBody_subset (threshold outTok : Nat) (protIds : List Nat) (l : List Msg) :
    ∀ x : Msg, x ∈ pruneBody threshold outTok protIds l → x ∈ l := by
  induction outTok, protIds, l using pruneBody.induct threshold with
  | case1 outTok protIds =>
    intro x hx
    simp only [pruneBody] at hx
    cases hx
  | case2 outTok protIds m rest hstop =>
    intro x hx
    simpa only [pruneBody, if_pos hstop] using hx
  | case3 outTok protIds m rest hstop hkeep ih =>
    intro x hx
    simp only [pruneBody, if_neg hstop, if_pos hkeep] at hx
    rcases List.mem_cons.mp hx with rfl | hx2
    · exact List.mem_cons_self _ _
    · exact List.mem_cons_of_mem _ (ih x hx2)
  | case4 outTok protIds m rest hstop hkeep hpid ih =>
    intro x hx
    simp only [pruneBody, if_neg hstop, if_neg hkeep, hpid] at hx
    exact List.mem_cons_of_mem _ (ih x hx)
  | case5 outTok protIds m rest hstop hkeep j hpid ih =>
    intro x hx
    simp only [pruneBody, if_neg hstop, if_neg hkeep, hpid] at hx
    exact List.mem_cons_of_mem _ (List.mem_of_mem_filter (ih x hx))

theorem pruneBody_keeps_system (threshold outTok : Nat) (protIds : List Nat)
    (l : List Msg) :
    ∀ m ∈ l, m.isSystem = true → m ∈ pruneBody threshold outTok protIds l := by
  induction outTok, protIds, l using pruneBody.induct threshold with
  | case1 outTok protIds =>
    intro x hx
    cases hx
  | case2 outTok protIds m rest hstop =>
    intro x hx hsys
    simpa only [pruneBody, if_pos hstop] using hx
  | case3 outTok protIds m rest hstop hkeep ih =>
    intro x hx hsys
    simp only [pruneBody, if_neg hstop, if_pos hkeep]
    rcases List.mem_cons.mp hx with rfl | hx2
    · exact List.mem_cons_self _ _
    · exact List.mem_cons_of_mem _ (ih x hx2 hsys)
  | case4 outTok protIds m rest hstop hkeep hpid ih =>
    intro x hx hsys
    simp only [pruneBody, if_neg hstop, if_neg hkeep, hpid]
    rcases List.mem_cons.mp hx with rfl | hx2
    · rw [(keepForced_eq_false hkeep).1] at hsys
      cases hsys
    · exact ih x hx2 hsys
  | case5 outTok protIds m rest hstop hkeep j hpid ih =>
    intro x hx hsys
    simp only [pruneBody, if_neg hstop, if_neg hkeep, hpid]
    rcases List.mem_cons.mp hx with rfl | hx2
    · rw [(keepForced_eq_false hkeep).1] at hsys
      cases hsys
    · refine ih x (List.mem_filter.mpr ⟨hx2, ?_⟩) hsys
      cases x <;> simp_all [Msg.isSystem, Msg.pairId]

end CodingAgent

namespace CodingAgent

theorem pruneBody_pairs (threshold : Nat) (tailMs : List Msg) (outTok : Nat)
    (protIds : List Nat) (l : List Msg) :
    ∀ i : Nat, protIds = msgIds tailMs →
      (l ++ tailMs).countP (isCallId i) ≤ 1 →
      (l ++ tailMs).countP (isResId i) ≤ 1 →
      (l ++ tailMs).any (isCallId i) = (l ++ tailMs).any (isResId i) →
      (pruneBody threshold outTok protIds l ++ tailMs).any (isCallId i)
        = (pruneBody threshold outTok protIds l ++ tailMs).any (isResId i) := by
  induction outTok, protIds, l using pruneBody.induct threshold with
  | case1 outTok protIds =>
    intro i hp h1 h2 h3
    simpa only [pruneBody] using h3
  | case2 outTok protIds m rest hstop =>
    intro i hp h1 h2 h3
    simpa only [pruneBody, if_pos hstop] using h3
  | case3 outTok protIds m rest hstop hkeep ih =>
    intro i hp h1 h2 h3
    simp only [pruneBody, if_neg hstop, if_pos hkeep, List.cons_append, List.any_cons]
    rw [List.cons_append] at h1 h2 h3
    rcases hpid : m.pairId with _ | j
    · have hmne : m.pairId ≠ some i := by simp [hpid]
      have hstrip := strip_cons_hyps hmne h1 h2 h3
      rw [isCallId_false_of_ne hmne, isResId_false_of_ne hmne, Bool.false_or, Bool.false_or]
      exact ih i hp hstrip.1 hstrip.2.1 hstrip.2.2
    · by_cases hij : j = i
      · have hcont : protIds.contains j = true := keepForced_pair hkeep hpid
        have hmem : j ∈ msgIds tailMs := by
          rw [hp] at hcont
          exact List.elem_iff.mp hcont
        obtain ⟨y, hy, hypid⟩ := mem_msgIds.mp hmem
        cases m with
        | system tk ct => simp [Msg.pairId] at hpid
        | user tk ct => simp [Msg.pairId] at hpid
        | assistant tk ct => simp [Msg.pairId] at hpid
        | toolCall jm tk nm ar =>
          have hjm : jm = j := by simpa [Msg.pairId] using hpid
          cases y with
          | system ty cy => simp [Msg.pairId] at hypid
          | user ty cy => simp [Msg.pairId] at hypid
          | assistant ty cy => simp [Msg.pairId] at hypid
          | toolCall jy ty ny ay =>
            exfalso
            have hjy : jy = j := by simpa [Msg.pairId] using hypid
            have hy1 : 0 < (rest ++ tailMs).countP (isCallId i) :=
              List.countP_pos_iff.mpr ⟨Msg.toolCall jy ty ny ay,
                List.mem_append_right _ hy, by simp [isCallId, hjy, hij]⟩
            rw [List.countP_cons] at h1
            have h1x : (rest ++ tailMs).countP (isCallId i) + 1 ≤ 1 := by
              simpa [isCallId, hjm, hij] using h1
            omega
          | toolResult jy ty py =>
            have hjy : jy = j := by simpa [Msg.pairId] using hypid
            simp only [isCallId, isResId, hjm, hij, beq_self_eq_true, Bool.true_or,
              Bool.false_or]
            exact (List.any_eq_true.mpr ⟨Msg.toolResult jy ty py,
              List.mem_append_right _ hy, by simp [isResId, hjy, hij]⟩).symm
        | toolResult jm tk pl =>
          have hjm : jm = j := by simpa [Msg.pairId] using hpid
          cases y with
          | system ty cy => simp [Msg.pairId] at hypid
          | user ty cy => simp [Msg.pairId] at hypid
          | assistant ty cy => simp [Msg.pairId] at hypid
          | toolResult jy ty py =>
            exfalso
            have hjy : jy = j := by simpa [Msg.pairId] using hypid
            have hy1 : 0 < (rest ++ tailMs).countP (isResId i) :=
              List.countP_pos_iff.mpr ⟨Msg.toolResult jy ty py,
                List.mem_append_right _ hy, by simp [isResId, hjy, hij]⟩
            rw [List.countP_cons] at h2
            have h2x : (rest ++ tailMs).countP (isResId i) + 1 ≤ 1 := by
              simpa [isResId, hjm, hij] using h2
            omega
          | toolCall jy ty ny ay =>
            have hjy : jy = j := by simpa [Msg.pairId] using hypid
            simp only [isCallId, isResId, hjm, hij, beq_self_eq_true, Bool.true_or,
              Bool.false_or]
            exact List.any_eq_true.mpr ⟨Msg.toolCall jy ty ny ay,
              List.mem_append_right _ hy, by simp [isCallId, hjy, hij]⟩
      · have hmne : m.pairId ≠ some i := by simp [hpid, hij]
        have hstrip := strip_cons_hyps hmne h1 h2 h3
        rw [isCallId_false_of_ne hmne, isResId_false_of_ne hmne, Bool.false_or, Bool.false_or]
        exact ih i hp hstrip.1 hstrip.2.1 hstrip.2.2
  | case4 outTok protIds m rest hstop hkeep hpid ih =>
    intro i hp h1 h2 h3
    simp only [pruneBody, if_neg hstop, if_neg hkeep, hpid]
    have hmne : m.pairId ≠ some i := by simp [hpid]
    rw [List.cons_append] at h1 h2 h3
    have hstrip := strip_cons_hyps hmne h1 h2 h3
    exact ih i hp hstrip.1 hstrip.2.1 hstrip.2.2
  | case5 outTok protIds m rest hstop hkeep j hpid ih =>
    intro i hp h1 h2 h3
    simp only [pruneBody, if_neg hstop, if_neg hkeep, hpid]
    have hjnot : j ∉ msgIds tailMs := by
      intro hmemj
      have hcj : protIds.contains j = true := by
        rw [hp]
        exact List.elem_iff.mpr hmemj
      rw [(keepForced_eq_false hkeep).2 j hpid] at hcj
      cases hcj
    by_cases hij : j = i
    · subst hij
      have hnone : ∀ (p : Msg → Bool), (∀ x, p x = true → x.pairId = some j) →
          (pruneBody threshold outTok protIds
            (rest.filter (fun x => !(x.pairId == some j))) ++ tailMs).any p = false := by
        intro p hpp
        rw [List.any_eq_false]
        intro x hx
        rcases List.mem_append.mp hx with hxo | hxt
        · have hxf := pruneBody_subset threshold outTok protIds _ x hxo
          have hpred := (List.mem_filter.mp hxf).2
          intro hcx
          rw [hpp x hcx] at hpred
          simp at hpred
        · intro hcx
          exact hjnot (mem_msgIds.mpr ⟨x, hxt, hpp x hcx⟩)
      rw [hnone (isCallId j) (fun x hx => pairId_of_isCallId hx),
        hnone (isResId j) (fun x hx => pairId_of_isResId hx)]
    · have hsubl : List.Sublist
          ((rest.filter (fun x => !(x.pairId == some j))) ++ tailMs)
          ((m :: rest) ++ tailMs) := by
        refine List.Sublist.append_right ?_ tailMs
        exact (List.filter_sublist rest).trans (List.sublist_cons_self m rest)
      have h1f : ((rest.filter (fun x => !(x.pairId == some j))) ++ tailMs).countP
          (isCallId i) ≤ 1 := le_trans (hsubl.countP_le _) h1
      have h2f : ((rest.filter (fun x => !(x.pairId == some j))) ++ tailMs).countP
          (isResId i) ≤ 1 := le_trans (hsubl.countP_le _) h2
      have key : ∀ (p : Msg → Bool), (∀ x, p x = true → x.pairId = some i) → p m = false →
          ((rest.filter (fun x => !(x.pairId == some j))) ++ tailMs).any p
            = ((m :: rest) ++ tailMs).any p := by
        intro p hpp hpm
        rw [List.cons_append, List.any_cons, hpm, Bool.false_or, List.any_append,
          List.any_append, List.any_filter]
        have hcongr : rest.any (fun a => (!(a.pairId == some j)) && p a) = rest.any p := by
          refine any_congrP rest _ _ (fun x hx => ?_)
          cases hpx : p x
          · simp [hpx]
          · have hxi := hpp x hpx
            have hne : ¬ i = j := fun h => hij h.symm
            simp [hpx, hxi, hne]
        rw [hcongr]
      have hpmc : isCallId i m = false := isCallId_false_of_ne (by simp [hpid, hij])
      have hpmr : isResId i m = false := isResId_false_of_ne (by simp [hpid, hij])
      have h3f : ((rest.filter (fun x => !(x.pairId == some j))) ++ tailMs).any (isCallId i)
          = ((rest.filter (fun x => !(x.pairId == some j))) ++ tailMs).any (isResId i) := by
        rw [key (isCallId i) (fun x hx => pairId_of_isCallId hx) hpmc,
          key (isResId i) (fun x hx => pairId_of_isResId hx) hpmr]
        exact h3
      exact ih i hp h1f h2f h3f

end CodingAgent

/-! ## Theorems: transcript pruning -/

/-- Claim C4: pruning a transcript never removes the system prompt and never
splits a ToolCall/ToolResult pair: every system message survives, and in the
pruned transcript every pairing identifier still has both its ToolCall and
its ToolResult (pairs are removed together or not at all). -/
theorem prune_preserves (threshold : Nat) (t : List CodingAgent.Msg)
    (hu : CodingAgent.uniquePairs t) (hw : CodingAgent.wellPaired t) :
    (∀ m ∈ t, m.isSystem = true → m ∈ CodingAgent.prune threshold t) ∧
    CodingAgent.wellPaired (CodingAgent.prune threshold t) := by
  constructor
  · intro m hm hsys
    rw [CodingAgent.prune]
    conv at hm => rw [← List.take_append_drop (t.length - 2) t]
    rcases List.mem_append.mp hm with hb | ht2
    · exact List.mem_append_left _
        (CodingAgent.pruneBody_keeps_system _ _ _ _ m hb hsys)
    · exact List.mem_append_right _ ht2
  · have hall : ∀ i : Nat, t.countP (CodingAgent.isCallId i) ≤ 1 ∧
        t.countP (CodingAgent.isResId i) ≤ 1 ∧
        t.any (CodingAgent.isCallId i) = t.any (CodingAgent.isResId i) := by
      intro i
      by_cases hmem : i ∈ CodingAgent.msgIds t
      · obtain ⟨hc, hr⟩ := hu i hmem
        obtain ⟨ha, hb⟩ := hw i hmem
        exact ⟨hc, hr, by rw [ha, hb]⟩
      · have hc0 : t.countP (CodingAgent.isCallId i) = 0 :=
          List.countP_eq_zero.mpr (fun x hx hpx =>
            hmem (CodingAgent.mem_msgIds.mpr ⟨x, hx, CodingAgent.pairId_of_isCallId hpx⟩))
        have hr0 : t.countP (CodingAgent.isResId i) = 0 :=
          List.countP_eq_zero.mpr (fun x hx hpx =>
            hmem (CodingAgent.mem_msgIds.mpr ⟨x, hx, CodingAgent.pairId_of_isResId hpx⟩))
        have hcf : t.any (CodingAgent.isCallId i) = false :=
          List.any_eq_false.mpr (fun x hx hpx =>
            hmem (CodingAgent.mem_msgIds.mpr ⟨x, hx, CodingAgent.pairId_of_isCallId hpx⟩))
        have hrf : t.any (CodingAgent.isResId i) = false :=
          List.any_eq_false.mpr (fun x hx hpx =>
            hmem (CodingAgent.mem_msgIds.mpr ⟨x, hx, CodingAgent.pairId_of_isResId hpx⟩))
        exact ⟨by omega, by omega, by rw [hcf, hrf]⟩
    have hmain : ∀ i : Nat,
        (CodingAgent.prune threshold t).any (CodingAgent.isCallId i)
          = (CodingAgent.prune threshold t).any (CodingAgent.isResId i) := by
      intro i
      have hxx := CodingAgent.pruneBody_pairs threshold (t.drop (t.length - 2))
        (CodingAgent.msgTokens (t.drop (t.length - 2)))
        (CodingAgent.msgIds (t.drop (t.length - 2)))
        (t.take (t.length - 2)) i rfl
        (by rw [List.take_append_drop]; exact (hall i).1)
        (by rw [List.take_append_drop]; exact (hall i).2.1)
        (by rw [List.take_append_drop]; exact (hall i).2.2)
      simpa [CodingAgent.prune] using hxx
    intro i hi
    obtain ⟨y, hy, hpy⟩ := CodingAgent.mem_msgIds.mp hi
    cases y with
    | system ty cy => simp [CodingAgent.Msg.pairId] at hpy
    | user ty cy => simp [CodingAgent.Msg.pairId] at hpy
    | assistant ty cy => simp [CodingAgent.Msg.pairId] at hpy
    | toolCall jy ty ny ay =>
      have hjy : jy = i := by simpa [CodingAgent.Msg.pairId] using hpy
      have hcall : (CodingAgent.prune threshold t).any (CodingAgent.isCallId i) = true :=
        List.any_eq_true.mpr ⟨CodingAgent.Msg.toolCall jy ty ny ay, hy,
          by simp [CodingAgent.isCallId, hjy]⟩
      exact ⟨hcall, by rw [← hmain i]; exact hcall⟩
    | toolResult jy ty py =>
      have hjy : jy = i := by simpa [CodingAgent.Msg.pairId] using hpy
      have hres : (CodingAgent.prune threshold t).any (CodingAgent.isResId i) = true :=
        List.any_eq_true.mpr ⟨CodingAgent.Msg.toolResult jy ty py, hy,
          by simp [CodingAgent.isResId, hjy]⟩
      exact ⟨by rw [hmain i]; exact hres, hres⟩

/-- A concrete transcript: system prompt, one paired tool exchange, then the
most recent user/assistant exchange. -/
def wTranscript : List CodingAgent.Msg :=
  [CodingAgent.Msg.system 10 "sys",
   CodingAgent.Msg.toolCall 1 40 "read" "a.py",
   CodingAgent.Msg.toolResult 1 60 "data",
   CodingAgent.Msg.user 5 "go",
   CodingAgent.Msg.assistant 5 "ok"]

/-- Witness for C4: the concrete transcript is uniquely and fully paired, and
pruning it to a 30-token threshold (which drops the tool pair) leaves a
transcript that is still fully paired. -/
theorem prune_preserves_witness :
    CodingAgent.uniquePairs wTranscript ∧ CodingAgent.wellPaired wTranscript ∧
    CodingAgent.wellPaired (CodingAgent.prune 30 wTranscript) :=
  ⟨by unfold CodingAgent.uniquePairs; decide,
   by unfold CodingAgent.wellPaired; decide,
   (prune_preserves 30 wTranscript
     (by unfold CodingAgent.uniquePairs; decide)
     (by unfold CodingAgent.wellPaired; decide)).2⟩
